import Mathlib

/-!
Verification of the Zipf-law word-frequency analyzer (Zakon_Zipfa.py).

The core pipeline is embedded shallowly:
* text is a list of unicode characters (Lean `Char` = unicode scalar value,
  as in Python 3 strings);
* tokens are lists of characters;
* Python float arithmetic is modelled by exact rational arithmetic over ℚ.

Embedded functions keep the source's names: `extract_words`,
`compute_zipf_C_opt`, plus named sub-expressions of `compute_zipf_C_opt`
(`zipfNumerator`, `zipfDenominator`, `zipfC`, `zipfTheor`, `zipfSSE`)
mirroring its lines 82-87.
-/

/-- The character class of `WORD_RE = re.compile(r"[а-яa-zё]+", re.IGNORECASE)`:
Latin `a`-`z`, Cyrillic `а`-`я`, and `ё`; with Unicode `IGNORECASE` the
class matches every character whose simple lower-case form falls in the
class or that CPython's `sre` case-equivalence table ties to a class
member. Concretely that is the upper-case letters `A`-`Z`, `А`-`Я`, `Ё`,
the Latin long s `ſ` (U+017F, equivalent to `s`), the dotless `ı` (U+0131,
equivalent to `i`), the dotted `İ` (U+0130, simple lower-case `i`), the
Kelvin sign (U+212A, lower-case `k`), and the historic Cyrillic letters
U+1C80-U+1C86 (equivalent to `в`, `д`, `о`, `с`, `т`, `т`, `ъ`). -/
def isWordChar (c : Char) : Bool :=
  (('a').toNat ≤ c.toNat && c.toNat ≤ ('z').toNat) ||
  (('а').toNat ≤ c.toNat && c.toNat ≤ ('я').toNat) ||
  (c.toNat == ('ё').toNat) ||
  (('A').toNat ≤ c.toNat && c.toNat ≤ ('Z').toNat) ||
  (('А').toNat ≤ c.toNat && c.toNat ≤ ('Я').toNat) ||
  (c.toNat == ('Ё').toNat) ||
  (c.toNat == 0x17F) || (c.toNat == 0x131) || (c.toNat == 0x130) ||
  (c.toNat == 0x212A) ||
  (0x1C80 ≤ c.toNat && c.toNat ≤ 0x1C86)

/-- The lower-case-only character class named by the specification:
Latin `a`-`z`, Cyrillic `а`-`я`, and `ё` (no upper-case letters). -/
def isWordCharLower (c : Char) : Bool :=
  (('a').toNat ≤ c.toNat && c.toNat ≤ ('z').toNat) ||
  (('а').toNat ≤ c.toNat && c.toNat ≤ ('я').toNat) ||
  (c.toNat == ('ё').toNat)

/-- Python's `str.lower()` per character (a character may lower-case to a
sequence, so the result is a list; the lowered text is the `flatMap`).
Covered exactly are the mappings whose input or output meets the word
alphabet of `WORD_RE`: `A`-`Z` and Cyrillic `А`-`Я` shift down by 32 code
points, `Ё` maps to `ё`, the Kelvin sign U+212A maps to `k`, and `İ`
(U+0130) maps to `i` followed by the combining dot above U+0307 — the only
one-to-many lower-case mapping in Unicode. Every other character is left
unchanged; the real `lower` also rewrites other scripts (Greek, fullwidth
forms, ...), but those characters are outside the word alphabet both
before and after lower-casing, so the tokens extracted are unaffected. -/
def pyLower (c : Char) : List Char :=
  if ('A').toNat ≤ c.toNat && c.toNat ≤ ('Z').toNat then [Char.ofNat (c.toNat + 32)]
  else if ('А').toNat ≤ c.toNat && c.toNat ≤ ('Я').toNat then [Char.ofNat (c.toNat + 32)]
  else if c.toNat == ('Ё').toNat then ['ё']
  else if c.toNat == 0x212A then ['k']
  else if c.toNat == 0x130 then ['i', Char.ofNat 0x307]
  else [c]

/-- Worker for `findall`: scans the text once; `cur` is the current run of
matching characters, in reverse. A run is emitted when it is interrupted by
a non-matching character or by the end of the text. -/
def findallGo (p : Char → Bool) (cur : List Char) : List Char → List (List Char)
  | [] => if cur = [] then [] else [cur.reverse]
  | c :: cs =>
    if p c then findallGo p (c :: cur) cs
    else if cur = [] then findallGo p [] cs
    else cur.reverse :: findallGo p [] cs

/-- `re.findall` for a one-character-class-plus regex: the maximal runs of
characters satisfying `p`, in document order. -/
def findall (p : Char → Bool) (text : List Char) : List (List Char) :=
  findallGo p [] text

/-- The module-level stop-word set `STOPWORDS_RU` (Russian conjunctions,
prepositions and particles), kept verbatim from the source, duplicates
included (membership is unaffected). -/
def STOPWORDS_RU : List (List Char) :=
  ["и", "а", "но", "или", "либо", "да", "то", "что", "чтоб", "чтобы",
   "как", "если", "когда", "хотя", "однако", "потому", "зато",
   "тоесть", "тоесть", "таккак", "потомучто",
   "в", "во", "на", "с", "со", "к", "ко", "о", "об", "обо",
   "от", "до", "из", "изо", "перед", "передо", "за", "под", "подо",
   "над", "надо", "при", "для", "через", "между", "по", "у", "без",
   "около", "возле", "при", "напод", "про",
   "же", "ли", "бы", "то", "вот"].map String.data

/-- `extract_words`: lower-case the text, find all `WORD_RE` matches, filter
out the stop words. -/
def extract_words (text : List Char) : List (List Char) :=
  (findall isWordChar (text.flatMap pyLower)).filter
    (fun w => !(STOPWORDS_RU.contains w))

/-- The tokenizer exactly as the specification words it: lower-case the
entire text, take the maximal runs of characters from the lower-case
alphabet Latin `a`-`z`, Cyrillic `а`-`я` and `ё` in document order, then
remove every token in the stop-word set. Stated for comparison with
`extract_words`. -/
def extract_words_spec (text : List Char) : List (List Char) :=
  (findall isWordCharLower (text.flatMap pyLower)).filter
    (fun w => !(STOPWORDS_RU.contains w))

/-- The characters on which Unicode case insensitivity exceeds the literal
alphabet of `WORD_RE`: the long s `ſ` (U+017F), the dotless `ı` (U+0131),
the dotted `İ` (U+0130), the Kelvin sign (U+212A), and the historic
Cyrillic letters U+1C80-U+1C86. On texts free of these characters the
tokenizer coincides with the specification's lower-case-alphabet
description; on texts containing them it does not (see
`tokenizer_long_s_divergence`). -/
def isExtraCaseChar (c : Char) : Bool :=
  (c.toNat == 0x17F) || (c.toNat == 0x131) || (c.toNat == 0x130) ||
  (c.toNat == 0x212A) ||
  (0x1C80 ≤ c.toNat && c.toNat ≤ 0x1C86)

/-- Worker for `firstOccs`: `seen` holds the tokens already listed. -/
def firstOccsGo (seen : List (List Char)) : List (List Char) → List (List Char)
  | [] => []
  | w :: ws =>
    if seen.contains w then firstOccsGo seen ws
    else w :: firstOccsGo (w :: seen) ws

/-- The distinct tokens of `ws` in first-occurrence order: the iteration
order of `collections.Counter(ws)` (insertion order of the underlying dict). -/
def firstOccs (ws : List (List Char)) : List (List Char) :=
  firstOccsGo [] ws

/-- `Counter(words).items()`: each distinct token paired with its occurrence
count, in first-occurrence order. -/
def counterItems (ws : List (List Char)) : List (List Char × Nat) :=
  (firstOccs ws).map (fun w => (w, ws.count w))

/-- The comparison used by `sorted(freq.items(), key=lambda x: x[1],
reverse=True)`: descending occurrence count. Python's `sorted` is stable,
as is `List.insertionSort` with this non-strict relation. -/
def countDescOrder : List Char × Nat → List Char × Nat → Prop :=
  fun a b => b.2 ≤ a.2

instance : DecidableRel countDescOrder :=
  fun a b => Nat.decLe b.2 a.2

instance : IsTotal (List Char × Nat) countDescOrder :=
  ⟨fun a b => (Nat.le_total a.2 b.2).symm⟩

instance : IsTrans (List Char × Nat) countDescOrder :=
  ⟨fun _ _ _ h1 h2 => Nat.le_trans h2 h1⟩

/-- Line 82: `numerator = sum(f / r for f, r in zip(freqs_exp, ranks))`. -/
def zipfNumerator (freqs_exp ranks : List Nat) : ℚ :=
  ((freqs_exp.zip ranks).map (fun (p : Nat × Nat) => (p.1 : ℚ) / (p.2 : ℚ))).sum

/-- Line 83: `denominator = sum(1 / (r * r) for r in ranks)`. -/
def zipfDenominator (ranks : List Nat) : ℚ :=
  (ranks.map (fun (r : Nat) => 1 / ((r : ℚ) * (r : ℚ)))).sum

/-- Line 84: `C_opt = numerator / denominator if denominator != 0 else 0.0`. -/
def zipfC (freqs_exp ranks : List Nat) : ℚ :=
  if zipfDenominator ranks ≠ 0 then zipfNumerator freqs_exp ranks / zipfDenominator ranks
  else 0

/-- Line 86: `freqs_theor = [C_opt / r for r in ranks]`. -/
def zipfTheor (C : ℚ) (ranks : List Nat) : List ℚ :=
  ranks.map (fun (r : Nat) => C / (r : ℚ))

/-- Line 87: `sse = sum((fe - ft) ** 2 for fe, ft in zip(freqs_exp, freqs_theor))`. -/
def zipfSSE (freqs_exp : List Nat) (freqs_theor : List ℚ) : ℚ :=
  ((freqs_exp.zip freqs_theor).map (fun (p : Nat × ℚ) => ((p.1 : ℚ) - p.2) ^ 2)).sum

/-- The tuple `compute_zipf_C_opt` returns:
`C_opt, ranks, freqs_exp, freqs_theor, sse, items`. -/
structure ZipfResult where
  C_opt : ℚ
  ranks : List Nat
  freqs_exp : List Nat
  freqs_theor : List ℚ
  sse : ℚ
  items : List (List Char × Nat)
deriving DecidableEq, Repr

/-- Lines 66-70 of `compute_zipf_C_opt`: the count-descending sorted,
possibly truncated item list (`none` is Python's `top_n=None`, no limit). -/
def rankedItems (words : List (List Char)) (top_n : Option Nat) : List (List Char × Nat) :=
  let items0 := List.insertionSort countDescOrder (counterItems words)
  match top_n with
  | some n => items0.take n
  | none => items0

/-- `compute_zipf_C_opt(words, top_n)`: count frequencies, sort by
descending count (stable), truncate to `top_n` when given, assign 1-based
ranks, and fit `F = C / R` by least squares; the empty ranking
short-circuits to the all-zero result of line 80. -/
def compute_zipf_C_opt (words : List (List Char)) (top_n : Option Nat) : ZipfResult :=
  let items := rankedItems words top_n
  let ranks := List.range' 1 items.length
  let freqs_exp := items.map Prod.snd
  if ranks = [] then ⟨0, [], [], [], 0, []⟩
  else
    let C_opt := zipfC freqs_exp ranks
    let freqs_theor := zipfTheor C_opt ranks
    ⟨C_opt, ranks, freqs_exp, freqs_theor, zipfSSE freqs_exp freqs_theor, items⟩

/-- One document's pass of `compare_texts`: tokenize, then rank and fit. -/
def pipeline (text : List Char) (top_n : Option Nat) : ZipfResult :=
  compute_zipf_C_opt (extract_words text) top_n

/-! ## Helper lemmas -/

/-- Unconditional unfolding of `compute_zipf_C_opt`: the empty-ranking
short-circuit of line 80 agrees with the general formulas, because on empty
lists the numerator, the denominator, the fitted constant and the error all
evaluate to the same zeros. -/
theorem compute_zipf_C_opt_eq (words : List (List Char)) (top_n : Option Nat) :
    compute_zipf_C_opt words top_n =
      { C_opt := zipfC ((rankedItems words top_n).map Prod.snd)
          (List.range' 1 (rankedItems words top_n).length),
        ranks := List.range' 1 (rankedItems words top_n).length,
        freqs_exp := (rankedItems words top_n).map Prod.snd,
        freqs_theor := zipfTheor
          (zipfC ((rankedItems words top_n).map Prod.snd)
            (List.range' 1 (rankedItems words top_n).length))
          (List.range' 1 (rankedItems words top_n).length),
        sse := zipfSSE ((rankedItems words top_n).map Prod.snd)
          (zipfTheor
            (zipfC ((rankedItems words top_n).map Prod.snd)
              (List.range' 1 (rankedItems words top_n).length))
            (List.range' 1 (rankedItems words top_n).length)),
        items := rankedItems words top_n } := by
  by_cases h : rankedItems words top_n = []
  · simp [compute_zipf_C_opt, h, zipfC, zipfNumerator, zipfDenominator, zipfTheor, zipfSSE]
  · have hlen : (rankedItems words top_n).length ≠ 0 := by
      simpa [List.length_eq_zero] using h
    simp [compute_zipf_C_opt, List.range'_eq_nil, hlen]

/-- Tokens listed by `firstOccsGo seen ws` are exactly the members of `ws`
not already in `seen`. -/
theorem mem_firstOccsGo (x : List Char) :
    ∀ (ws seen : List (List Char)), x ∈ firstOccsGo seen ws ↔ x ∈ ws ∧ x ∉ seen := by
  intro ws
  induction ws with
  | nil => intro seen; simp [firstOccsGo]
  | cons w ws ih =>
    intro seen
    by_cases hw : seen.contains w
    · have hw' : w ∈ seen := by
        simpa [List.contains, List.elem_iff] using hw
      simp only [firstOccsGo, if_pos hw, ih, List.mem_cons]
      constructor
      · rintro ⟨hx, hs⟩; exact ⟨Or.inr hx, hs⟩
      · rintro ⟨hx | hx, hs⟩
        · exact absurd (hx ▸ hw') hs
        · exact ⟨hx, hs⟩
    · have hw' : w ∉ seen := by
        simpa [List.contains, List.elem_iff] using hw
      simp only [firstOccsGo, if_neg hw, List.mem_cons, ih]
      constructor
      · rintro (rfl | ⟨hx, hs⟩)
        · exact ⟨Or.inl rfl, hw'⟩
        · simp only [List.mem_cons, not_or] at hs
          exact ⟨Or.inr hx, hs.2⟩
      · rintro ⟨rfl | hx, hs⟩
        · exact Or.inl rfl
        · by_cases hxw : x = w
          · exact Or.inl hxw
          · exact Or.inr ⟨hx, by simp [List.mem_cons, hxw, hs]⟩

/-- `firstOccs` lists exactly the distinct tokens of `ws`. -/
theorem mem_firstOccs (x : List Char) (ws : List (List Char)) :
    x ∈ firstOccs ws ↔ x ∈ ws := by
  simp [firstOccs, mem_firstOccsGo]

/-- `firstOccsGo` never lists a token twice. -/
theorem nodup_firstOccsGo :
    ∀ (ws seen : List (List Char)), (firstOccsGo seen ws).Nodup := by
  intro ws
  induction ws with
  | nil => intro seen; simp [firstOccsGo]
  | cons w ws ih =>
    intro seen
    by_cases hw : seen.contains w
    · have hw' : w ∈ seen := by
        simpa [List.contains, List.elem_iff] using hw
      simpa [firstOccsGo, hw, hw'] using ih seen
    · simp only [firstOccsGo, if_neg hw, List.nodup_cons]
      refine ⟨fun hmem => ?_, ih (w :: seen)⟩
      exact ((mem_firstOccsGo w ws (w :: seen)).1 hmem).2 (List.mem_cons_self w seen)

/-- `firstOccs` never lists a token twice. -/
theorem nodup_firstOccs (ws : List (List Char)) : (firstOccs ws).Nodup :=
  nodup_firstOccsGo ws []

/-- The length of the ranked item list is the distinct-token count, capped
at `top_n` when a cutoff is given. -/
theorem length_rankedItems (words : List (List Char)) :
    (∀ n, (rankedItems words (some n)).length = min n (firstOccs words).length) ∧
    (rankedItems words none).length = (firstOccs words).length := by
  constructor
  · intro n
    simp [rankedItems, List.length_take, List.length_insertionSort, counterItems]
  · simp [rankedItems, List.length_insertionSort, counterItems]

/-! ## Claim theorems -/

/-- C4: on the empty token sequence — e.g. the tokens of a text holding only
stop words and punctuation — `compute_zipf_C_opt` returns the degenerate
result: constant 0, empty rank/empirical/theoretical sequences, SSE 0; a
total function, so no error is raised. -/
theorem fitter_empty_input_degenerate :
    (∀ top_n : Option Nat,
      compute_zipf_C_opt [] top_n =
        { C_opt := 0, ranks := [], freqs_exp := [], freqs_theor := [],
          sse := 0, items := [] }) ∧
    extract_words ("и в, на — по!".data) = [] := by
  constructor
  · intro top_n
    cases top_n <;>
      simp [compute_zipf_C_opt, rankedItems, counterItems, firstOccs, firstOccsGo]
  · decide

/-- C9: the four sequence outputs of the fitter — ranks, empirical
frequencies, theoretical frequencies, items — have the same length, and the
i-th entries describe the same ranked item: the i-th rank is position i+1,
the i-th empirical frequency is the count of the i-th item, and the i-th
theoretical frequency is `C_opt` divided by the i-th rank. -/
theorem fitter_outputs_aligned (words : List (List Char)) (top_n : Option Nat) :
    (compute_zipf_C_opt words top_n).ranks
        = List.range' 1 (compute_zipf_C_opt words top_n).items.length ∧
    (compute_zipf_C_opt words top_n).freqs_exp
        = (compute_zipf_C_opt words top_n).items.map Prod.snd ∧
    (compute_zipf_C_opt words top_n).freqs_theor
        = (compute_zipf_C_opt words top_n).ranks.map
            (fun (r : Nat) => (compute_zipf_C_opt words top_n).C_opt / (r : ℚ)) ∧
    (compute_zipf_C_opt words top_n).ranks.length
        = (compute_zipf_C_opt words top_n).items.length ∧
    (compute_zipf_C_opt words top_n).freqs_exp.length
        = (compute_zipf_C_opt words top_n).items.length ∧
    (compute_zipf_C_opt words top_n).freqs_theor.length
        = (compute_zipf_C_opt words top_n).items.length := by
  rw [compute_zipf_C_opt_eq]
  refine ⟨rfl, rfl, rfl, ?_, ?_, ?_⟩ <;>
    simp [zipfTheor]

/-- C8: the pipeline is deterministic — identical input text and identical
`top_n` give identical token sequences and identical results (the embedding
is a pure function of its arguments; there is no hidden randomness). -/
theorem pipeline_deterministic (text1 text2 : List Char) (top1 top2 : Option Nat)
    (htext : text1 = text2) (htop : top1 = top2) :
    extract_words text1 = extract_words text2 ∧
    pipeline text1 top1 = pipeline text2 top2 := by
  subst htext
  subst htop
  exact ⟨rfl, rfl⟩

/-- Witness for C8 at a concrete text and cutoff. -/
theorem pipeline_deterministic_run :
    extract_words ("кот и мышь".data) = extract_words ("кот и мышь".data) ∧
    pipeline ("кот и мышь".data) (some 200) = pipeline ("кот и мышь".data) (some 200) :=
  pipeline_deterministic ("кот и мышь".data) ("кот и мышь".data) (some 200) (some 200) rfl rfl

/-- Each term of the least-squares denominator is strictly positive when
every rank is at least 1, so the denominator itself is. -/
theorem zipfDenominator_pos (ranks : List Nat) (hne : ranks ≠ [])
    (hr : ∀ r ∈ ranks, 1 ≤ r) : 0 < zipfDenominator ranks := by
  apply List.sum_pos
  · intro x hx
    simp only [List.mem_map] at hx
    obtain ⟨r, hrmem, rfl⟩ := hx
    have h1 : (1 : ℚ) ≤ (r : ℚ) := by exact_mod_cast hr r hrmem
    have h0 : (0 : ℚ) < (r : ℚ) := lt_of_lt_of_le one_pos h1
    exact div_pos one_pos (mul_pos h0 h0)
  · simpa [zipfDenominator, List.map_eq_nil_iff] using hne

/-- C1: for a non-empty ranked sequence of (rank, empirical frequency)
pairs with ranks ≥ 1, the fitted constant is exactly the closed form
`Σ(F_r/r) / Σ(1/r²)`, each theoretical frequency is that constant divided
by its rank, and the constant satisfies the least-squares normal equation
`Σ(F_r/r) = C* · Σ(1/r²)`. -/
theorem zipf_fitter_normal_equation (freqs_exp ranks : List Nat)
    (hlen : freqs_exp.length = ranks.length)
    (hne : ranks ≠ []) (hr : ∀ r ∈ ranks, 1 ≤ r) :
    zipfC freqs_exp ranks = zipfNumerator freqs_exp ranks / zipfDenominator ranks ∧
    zipfTheor (zipfC freqs_exp ranks) ranks
      = ranks.map (fun (r : Nat) => zipfC freqs_exp ranks / (r : ℚ)) ∧
    zipfNumerator freqs_exp ranks = zipfC freqs_exp ranks * zipfDenominator ranks := by
  have hden : zipfDenominator ranks ≠ 0 := ne_of_gt (zipfDenominator_pos ranks hne hr)
  refine ⟨by simp [zipfC, hden], rfl, ?_⟩
  rw [zipfC, if_pos hden, div_mul_cancel₀ _ hden]

/-- Witness for C1 on the ranked sequence (1,3), (2,2), (3,1). -/
theorem zipf_fitter_normal_equation_run :
    zipfC [3, 2, 1] [1, 2, 3] = zipfNumerator [3, 2, 1] [1, 2, 3] / zipfDenominator [1, 2, 3] ∧
    zipfTheor (zipfC [3, 2, 1] [1, 2, 3]) [1, 2, 3]
      = [1, 2, 3].map (fun (r : Nat) => zipfC [3, 2, 1] [1, 2, 3] / (r : ℚ)) ∧
    zipfNumerator [3, 2, 1] [1, 2, 3]
      = zipfC [3, 2, 1] [1, 2, 3] * zipfDenominator [1, 2, 3] :=
  zipf_fitter_normal_equation [3, 2, 1] [1, 2, 3] (by decide) (by decide) (by decide)

/-- The sum of squared errors is a sum of squares, hence non-negative. -/
theorem zipfSSE_nonneg (fe : List Nat) (ft : List ℚ) : 0 ≤ zipfSSE fe ft := by
  apply List.sum_nonneg
  intro x hx
  simp only [List.mem_map] at hx
  obtain ⟨p, _, rfl⟩ := hx
  exact sq_nonneg _

/-- The sum of squared errors vanishes exactly when every paired empirical
and theoretical frequency agree. -/
theorem zipfSSE_eq_zero_iff (fe : List Nat) (ft : List ℚ) :
    zipfSSE fe ft = 0 ↔ ∀ p ∈ fe.zip ft, ((p.1 : ℚ)) = p.2 := by
  constructor
  · intro h p hp
    have hterm : ∀ x ∈ (fe.zip ft).map (fun (p : Nat × ℚ) => ((p.1 : ℚ) - p.2) ^ 2),
        x = 0 := by
      apply List.all_zero_of_le_zero_le_of_sum_eq_zero
      · intro x hx
        simp only [List.mem_map] at hx
        obtain ⟨q, _, rfl⟩ := hx
        exact sq_nonneg _
      · exact h
    have hsq := hterm (((p.1 : ℚ) - p.2) ^ 2) (List.mem_map_of_mem _ hp)
    have hsub : ((p.1 : ℚ) - p.2) = 0 := sq_eq_zero_iff.mp hsq
    linarith [hsub]
  · intro h
    apply List.sum_eq_zero
    intro x hx
    simp only [List.mem_map] at hx
    obtain ⟨q, hq, rfl⟩ := hx
    rw [h q hq]
    ring

/-- C2: for every ranked sequence produced by the fitter, the
sum-of-squared-error is non-negative, and it is zero exactly when every
empirical frequency equals its theoretical counterpart (pointwise over the
two equal-length output sequences). -/
theorem fitter_sse_nonneg_and_zero_iff (words : List (List Char)) (top_n : Option Nat) :
    0 ≤ (compute_zipf_C_opt words top_n).sse ∧
    ((compute_zipf_C_opt words top_n).sse = 0 ↔
      List.Forall₂ (fun (fe : Nat) (ft : ℚ) => (fe : ℚ) = ft)
        (compute_zipf_C_opt words top_n).freqs_exp
        (compute_zipf_C_opt words top_n).freqs_theor) := by
  rw [compute_zipf_C_opt_eq]
  dsimp only
  refine ⟨zipfSSE_nonneg _ _, ?_⟩
  rw [zipfSSE_eq_zero_iff, List.forall₂_iff_zip]
  constructor
  · intro h
    refine ⟨by simp [zipfTheor], ?_⟩
    intro a b hab
    exact h (a, b) hab
  · rintro ⟨_, h⟩ p hp
    exact h hp

/-- C3: the output ranks of the ranker are exactly the contiguous sequence
`1..K`, `K = min(top_n, number of distinct tokens)` with a cutoff and
`K = number of distinct tokens` without; `firstOccs words` is the distinct
token list (no duplicates, same members as `words`). -/
theorem ranker_ranks_contiguous (words : List (List Char)) (top_n : Option Nat) :
    (compute_zipf_C_opt words top_n).ranks
      = List.range' 1 (match top_n with
          | some n => min n (firstOccs words).length
          | none => (firstOccs words).length) ∧
    (firstOccs words).Nodup ∧
    (∀ w, w ∈ firstOccs words ↔ w ∈ words) := by
  refine ⟨?_, nodup_firstOccs words, fun w => mem_firstOccs w words⟩
  rw [compute_zipf_C_opt_eq]
  dsimp only
  congr 1
  cases top_n with
  | some n => exact (length_rankedItems words).1 n
  | none => exact (length_rankedItems words).2

/-- Every ranked item is one of the counted items. -/
theorem mem_counterItems_of_mem_rankedItems (words : List (List Char))
    (top_n : Option Nat) (p : List Char × Nat) (hp : p ∈ rankedItems words top_n) :
    p ∈ counterItems words := by
  have hmem : p ∈ List.insertionSort countDescOrder (counterItems words) := by
    cases top_n with
    | some n => exact List.take_subset n _ hp
    | none => exact hp
  exact (List.mem_insertionSort countDescOrder).1 hmem

/-- Every counted item's frequency is the count of a token that occurs in
`words`, hence at least 1. -/
theorem one_le_count_of_mem_counterItems (words : List (List Char))
    (p : List Char × Nat) (hp : p ∈ counterItems words) : 1 ≤ p.2 := by
  simp only [counterItems, List.mem_map] at hp
  obtain ⟨w, hw, rfl⟩ := hp
  have hmem : w ∈ words := (mem_firstOccs w words).1 hw
  exact List.count_pos_iff.2 hmem

/-- C10: on a non-empty token sequence, with `top_n ≥ 1` or no limit, every
empirical frequency in the ranked output is at least 1, the least-squares
denominator `Σ 1/r²` is strictly positive (so the denominator-zero fallback
of line 84 is not taken and `C_opt` is the quotient), and the fitted
constant is strictly positive. -/
theorem fitter_denominator_and_constant_positive (words : List (List Char))
    (top_n : Option Nat) (hw : words ≠ [])
    (htop : top_n = none ∨ ∃ n, top_n = some n ∧ 1 ≤ n) :
    (∀ f ∈ (compute_zipf_C_opt words top_n).freqs_exp, 1 ≤ f) ∧
    0 < zipfDenominator (compute_zipf_C_opt words top_n).ranks ∧
    (compute_zipf_C_opt words top_n).C_opt
      = zipfNumerator (compute_zipf_C_opt words top_n).freqs_exp
          (compute_zipf_C_opt words top_n).ranks
        / zipfDenominator (compute_zipf_C_opt words top_n).ranks ∧
    0 < (compute_zipf_C_opt words top_n).C_opt := by
  obtain ⟨w0, ws0, rfl⟩ := List.exists_cons_of_ne_nil hw
  have hw0 : w0 ∈ firstOccs (w0 :: ws0) := (mem_firstOccs w0 _).2 (List.mem_cons_self _ _)
  have hfo : 1 ≤ (firstOccs (w0 :: ws0)).length := List.length_pos_of_mem hw0
  have hlen : 1 ≤ (rankedItems (w0 :: ws0) top_n).length := by
    rcases htop with rfl | ⟨n, rfl, hn⟩
    · rw [(length_rankedItems _).2]; exact hfo
    · rw [(length_rankedItems _).1 n]; exact le_min hn hfo
  set items := rankedItems (w0 :: ws0) top_n with hitems
  set K := items.length with hK
  have hfreq : ∀ f ∈ items.map Prod.snd, 1 ≤ f := by
    intro f hf
    simp only [List.mem_map] at hf
    obtain ⟨p, hp, rfl⟩ := hf
    exact one_le_count_of_mem_counterItems _ p
      (mem_counterItems_of_mem_rankedItems _ top_n p hp)
  have hranks1 : ∀ r ∈ List.range' 1 K, 1 ≤ r := by
    intro r hr
    obtain ⟨i, _, rfl⟩ := List.mem_range'.1 hr
    omega
  have hrne : List.range' 1 K ≠ [] := by
    simp only [ne_eq, List.range'_eq_nil]
    omega
  have hden : 0 < zipfDenominator (List.range' 1 K) :=
    zipfDenominator_pos _ hrne hranks1
  have hnum : 0 < zipfNumerator (items.map Prod.snd) (List.range' 1 K) := by
    apply List.sum_pos
    · intro x hx
      simp only [List.mem_map] at hx
      obtain ⟨q, hq, rfl⟩ := hx
      obtain ⟨hq1, hq2⟩ := List.of_mem_zip hq
      have h1 : (1 : ℚ) ≤ (q.1 : ℚ) := by exact_mod_cast hfreq q.1 hq1
      have h2 : (1 : ℚ) ≤ (q.2 : ℚ) := by exact_mod_cast hranks1 q.2 hq2
      exact div_pos (lt_of_lt_of_le one_pos h1) (lt_of_lt_of_le one_pos h2)
    · have hzlen : ((items.map Prod.snd).zip (List.range' 1 K)).length = K := by
        rw [List.length_zip, List.length_map, List.length_range']
        exact min_self _
      apply List.ne_nil_of_length_pos
      rw [List.length_map, hzlen]
      omega
  have hCval : (compute_zipf_C_opt (w0 :: ws0) top_n).C_opt
      = zipfNumerator (items.map Prod.snd) (List.range' 1 K)
        / zipfDenominator (List.range' 1 K) := by
    rw [compute_zipf_C_opt_eq]
    dsimp only
    rw [zipfC, if_pos (ne_of_gt hden)]
  refine ⟨?_, ?_, ?_, ?_⟩
  · rw [compute_zipf_C_opt_eq]; exact hfreq
  · rw [compute_zipf_C_opt_eq]; exact hden
  · rw [compute_zipf_C_opt_eq]; dsimp only; rw [zipfC, if_pos (ne_of_gt hden)]
  · rw [hCval]
    exact div_pos hnum hden

/-- Witness for C10 on the token sequence [кот, кот, мышь] with cutoff 200. -/
theorem fitter_denominator_and_constant_positive_run :
    (∀ f ∈ (compute_zipf_C_opt ["кот".data, "кот".data, "мышь".data] (some 200)).freqs_exp,
      1 ≤ f) ∧
    0 < zipfDenominator
        (compute_zipf_C_opt ["кот".data, "кот".data, "мышь".data] (some 200)).ranks ∧
    (compute_zipf_C_opt ["кот".data, "кот".data, "мышь".data] (some 200)).C_opt
      = zipfNumerator
          (compute_zipf_C_opt ["кот".data, "кот".data, "мышь".data] (some 200)).freqs_exp
          (compute_zipf_C_opt ["кот".data, "кот".data, "мышь".data] (some 200)).ranks
        / zipfDenominator
            (compute_zipf_C_opt ["кот".data, "кот".data, "мышь".data] (some 200)).ranks ∧
    0 < (compute_zipf_C_opt ["кот".data, "кот".data, "мышь".data] (some 200)).C_opt :=
  fitter_denominator_and_constant_positive ["кот".data, "кот".data, "мышь".data]
    (some 200) (by decide) (Or.inr ⟨200, rfl, by decide⟩)

/-- C7: with 10 distinct tokens of pairwise distinct frequencies and
`top_n = 5`, the ranked output is exactly 5 items with ranks 1..5, every
output item is a counted item, and every counted item left out has a
strictly smaller frequency than every output item (so the output is
precisely the 5 highest-frequency tokens). -/
theorem truncation_keeps_top_five (words : List (List Char))
    (hdistinct : (firstOccs words).length = 10)
    (hfreqs : List.Pairwise (fun (a b : List Char × Nat) => a.2 ≠ b.2) (counterItems words)) :
    (compute_zipf_C_opt words (some 5)).items.length = 5 ∧
    (compute_zipf_C_opt words (some 5)).ranks = [1, 2, 3, 4, 5] ∧
    (∀ p ∈ (compute_zipf_C_opt words (some 5)).items, p ∈ counterItems words) ∧
    (∀ p ∈ (compute_zipf_C_opt words (some 5)).items,
      ∀ q ∈ counterItems words,
        q ∉ (compute_zipf_C_opt words (some 5)).items → q.2 < p.2) := by
  have hitems : (compute_zipf_C_opt words (some 5)).items = rankedItems words (some 5) := by
    rw [compute_zipf_C_opt_eq]
  have hlen5 : (rankedItems words (some 5)).length = 5 := by
    rw [(length_rankedItems words).1 5, hdistinct]
    omega
  refine ⟨by rw [hitems, hlen5], ?_, ?_, ?_⟩
  · rw [compute_zipf_C_opt_eq]
    dsimp only
    rw [hlen5]
    rfl
  · intro p hp
    exact mem_counterItems_of_mem_rankedItems words (some 5) p (hitems ▸ hp)
  · intro p hp q hq hqnot
    rw [hitems] at hp hqnot
    have hperm : List.Perm (List.insertionSort countDescOrder (counterItems words))
        (counterItems words) :=
      List.perm_insertionSort countDescOrder (counterItems words)
    have hsorted : List.Pairwise countDescOrder
        (List.insertionSort countDescOrder (counterItems words)) :=
      List.sorted_insertionSort countDescOrder (counterItems words)
    have hne : List.Pairwise (fun (a b : List Char × Nat) => a.2 ≠ b.2)
        (List.insertionSort countDescOrder (counterItems words)) :=
      (List.Perm.pairwise_iff (fun hxy => hxy.symm) hperm).2 hfreqs
    have hsplit : List.insertionSort countDescOrder (counterItems words)
        = (List.insertionSort countDescOrder (counterItems words)).take 5
          ++ (List.insertionSort countDescOrder (counterItems words)).drop 5 :=
      (List.take_append_drop 5 _).symm
    have hq' : q ∈ (List.insertionSort countDescOrder (counterItems words)).take 5
        ++ (List.insertionSort countDescOrder (counterItems words)).drop 5 := by
      rw [← hsplit]
      exact hperm.mem_iff.2 hq
    have hqdrop : q ∈ (List.insertionSort countDescOrder (counterItems words)).drop 5 := by
      rcases List.mem_append.1 hq' with h | h
      · exact absurd h (by simpa [rankedItems] using hqnot)
      · exact h
    have hptake : p ∈ (List.insertionSort countDescOrder (counterItems words)).take 5 := by
      simpa [rankedItems] using hp
    rw [hsplit] at hsorted hne
    have hle : countDescOrder p q :=
      (List.pairwise_append.1 hsorted).2.2 p hptake q hqdrop
    have hnepq : p.2 ≠ q.2 :=
      (List.pairwise_append.1 hne).2.2 p hptake q hqdrop
    exact lt_of_le_of_ne hle (Ne.symm hnepq)

/-- Witness for C7: ten distinct single-letter tokens with frequencies
10 down to 1 and cutoff 5. -/
theorem truncation_keeps_top_five_run :
    (compute_zipf_C_opt (List.replicate 10 ['b'] ++ List.replicate 9 ['c'] ++ List.replicate 8 ['d'] ++ List.replicate 7 ['e'] ++ List.replicate 6 ['f'] ++ List.replicate 5 ['g'] ++ List.replicate 4 ['h'] ++ List.replicate 3 ['i'] ++ List.replicate 2 ['j'] ++ List.replicate 1 ['k']) (some 5)).items.length = 5 ∧
    (compute_zipf_C_opt (List.replicate 10 ['b'] ++ List.replicate 9 ['c'] ++ List.replicate 8 ['d'] ++ List.replicate 7 ['e'] ++ List.replicate 6 ['f'] ++ List.replicate 5 ['g'] ++ List.replicate 4 ['h'] ++ List.replicate 3 ['i'] ++ List.replicate 2 ['j'] ++ List.replicate 1 ['k']) (some 5)).ranks = [1, 2, 3, 4, 5] ∧
    (∀ p ∈ (compute_zipf_C_opt (List.replicate 10 ['b'] ++ List.replicate 9 ['c'] ++ List.replicate 8 ['d'] ++ List.replicate 7 ['e'] ++ List.replicate 6 ['f'] ++ List.replicate 5 ['g'] ++ List.replicate 4 ['h'] ++ List.replicate 3 ['i'] ++ List.replicate 2 ['j'] ++ List.replicate 1 ['k']) (some 5)).items,
      p ∈ counterItems (List.replicate 10 ['b'] ++ List.replicate 9 ['c'] ++ List.replicate 8 ['d'] ++ List.replicate 7 ['e'] ++ List.replicate 6 ['f'] ++ List.replicate 5 ['g'] ++ List.replicate 4 ['h'] ++ List.replicate 3 ['i'] ++ List.replicate 2 ['j'] ++ List.replicate 1 ['k'])) ∧
    (∀ p ∈ (compute_zipf_C_opt (List.replicate 10 ['b'] ++ List.replicate 9 ['c'] ++ List.replicate 8 ['d'] ++ List.replicate 7 ['e'] ++ List.replicate 6 ['f'] ++ List.replicate 5 ['g'] ++ List.replicate 4 ['h'] ++ List.replicate 3 ['i'] ++ List.replicate 2 ['j'] ++ List.replicate 1 ['k']) (some 5)).items,
      ∀ q ∈ counterItems (List.replicate 10 ['b'] ++ List.replicate 9 ['c'] ++ List.replicate 8 ['d'] ++ List.replicate 7 ['e'] ++ List.replicate 6 ['f'] ++ List.replicate 5 ['g'] ++ List.replicate 4 ['h'] ++ List.replicate 3 ['i'] ++ List.replicate 2 ['j'] ++ List.replicate 1 ['k']),
        q ∉ (compute_zipf_C_opt (List.replicate 10 ['b'] ++ List.replicate 9 ['c'] ++ List.replicate 8 ['d'] ++ List.replicate 7 ['e'] ++ List.replicate 6 ['f'] ++ List.replicate 5 ['g'] ++ List.replicate 4 ['h'] ++ List.replicate 3 ['i'] ++ List.replicate 2 ['j'] ++ List.replicate 1 ['k']) (some 5)).items → q.2 < p.2) :=
  truncation_keeps_top_five (List.replicate 10 ['b'] ++ List.replicate 9 ['c'] ++ List.replicate 8 ['d'] ++ List.replicate 7 ['e'] ++ List.replicate 6 ['f'] ++ List.replicate 5 ['g'] ++ List.replicate 4 ['h'] ++ List.replicate 3 ['i'] ++ List.replicate 2 ['j'] ++ List.replicate 1 ['k']) (by decide) (by decide)

/-- `Char.ofNat` of a valid code point decodes back to that code point. -/
theorem toNat_ofNat_valid (n : Nat) (h : n.isValidChar) : (Char.ofNat n).toNat = n := by
  simp [Char.ofNat, h, Char.toNat, Char.ofNatAux, UInt32.toNat, BitVec.toNat_ofNatLt]

/-- On characters outside the three upper-case ranges and outside the extra
case-equivalent set, the `IGNORECASE` word class agrees with the
lower-case-only word class. -/
theorem isWordChar_eq_lower_of_plain (d : Char)
    (h1 : ¬(65 ≤ d.toNat ∧ d.toNat ≤ 90))
    (h2 : ¬(1040 ≤ d.toNat ∧ d.toNat ≤ 1071))
    (h3 : d.toNat ≠ 1025) (h4 : d.toNat ≠ 0x17F) (h5 : d.toNat ≠ 0x131)
    (h6 : d.toNat ≠ 0x130) (h7 : d.toNat ≠ 0x212A)
    (h8 : ¬(0x1C80 ≤ d.toNat ∧ d.toNat ≤ 0x1C86)) :
    isWordChar d = isWordCharLower d := by
  simp only [isWordChar, isWordCharLower,
    show ('a').toNat = 97 from by decide, show ('z').toNat = 122 from by decide,
    show ('а').toNat = 1072 from by decide, show ('я').toNat = 1103 from by decide,
    show ('ё').toNat = 1105 from by decide, show ('A').toNat = 65 from by decide,
    show ('Z').toNat = 90 from by decide, show ('А').toNat = 1040 from by decide,
    show ('Я').toNat = 1071 from by decide, show ('Ё').toNat = 1025 from by decide]
  rw [Bool.eq_iff_iff]
  simp only [Bool.or_eq_true, Bool.and_eq_true, decide_eq_true_eq, beq_iff_eq]
  omega

/-- Lower-casing a character that is not in the extra case-equivalent set
yields only characters on which the `IGNORECASE` word class and the
lower-case-only word class agree. -/
theorem isWordChar_eq_lower_on_pyLower (c : Char) (hc : isExtraCaseChar c = false) :
    ∀ d ∈ pyLower c, isWordChar d = isWordCharLower d := by
  simp only [isExtraCaseChar, Bool.or_eq_false_iff, Bool.and_eq_false_iff,
    beq_eq_false_iff_ne, ne_eq, decide_eq_false_iff_not, not_le] at hc
  intro d hd
  unfold pyLower at hd
  by_cases h1 : (('A').toNat ≤ c.toNat && c.toNat ≤ ('Z').toNat) = true
  · rw [if_pos h1] at hd
    simp only [List.mem_singleton] at hd
    subst hd
    simp only [Bool.and_eq_true, decide_eq_true_eq,
      show ('A').toNat = 65 from by decide, show ('Z').toNat = 90 from by decide] at h1
    have hv : (c.toNat + 32).isValidChar := Or.inl (by omega)
    have ht : (Char.ofNat (c.toNat + 32)).toNat = c.toNat + 32 := toNat_ofNat_valid _ hv
    apply isWordChar_eq_lower_of_plain <;> rw [ht] <;> omega
  · rw [if_neg h1] at hd
    by_cases h2 : (('А').toNat ≤ c.toNat && c.toNat ≤ ('Я').toNat) = true
    · rw [if_pos h2] at hd
      simp only [List.mem_singleton] at hd
      subst hd
      simp only [Bool.and_eq_true, decide_eq_true_eq,
        show ('А').toNat = 1040 from by decide,
        show ('Я').toNat = 1071 from by decide] at h2
      have hv : (c.toNat + 32).isValidChar := Or.inl (by omega)
      have ht : (Char.ofNat (c.toNat + 32)).toNat = c.toNat + 32 := toNat_ofNat_valid _ hv
      apply isWordChar_eq_lower_of_plain <;> rw [ht] <;> omega
    · rw [if_neg h2] at hd
      by_cases h3 : (c.toNat == ('Ё').toNat) = true
      · rw [if_pos h3] at hd
        simp only [List.mem_singleton] at hd
        subst hd
        decide
      · rw [if_neg h3] at hd
        rw [if_neg (by simp [beq_iff_eq]; omega)] at hd
        rw [if_neg (by simp [beq_iff_eq]; omega)] at hd
        simp only [List.mem_singleton] at hd
        subst hd
        simp only [Bool.and_eq_true, decide_eq_true_eq, not_and,
          show ('A').toNat = 65 from by decide, show ('Z').toNat = 90 from by decide] at h1
        simp only [Bool.and_eq_true, decide_eq_true_eq, not_and,
          show ('А').toNat = 1040 from by decide,
          show ('Я').toNat = 1071 from by decide] at h2
        simp only [beq_iff_eq, show ('Ё').toNat = 1025 from by decide] at h3
        apply isWordChar_eq_lower_of_plain <;> omega

/-- `findallGo` only inspects the predicate on the characters of the text,
so pointwise equal predicates give equal match lists. -/
theorem findallGo_congr (p q : Char → Bool) :
    ∀ (cs cur : List Char), (∀ c ∈ cs, p c = q c) →
      findallGo p cur cs = findallGo q cur cs := by
  intro cs
  induction cs with
  | nil => intro cur _; rfl
  | cons c cs ih =>
    intro cur h
    have hc : p c = q c := h c (List.mem_cons_self c cs)
    have hrest : ∀ x ∈ cs, p x = q x := fun x hx => h x (List.mem_cons_of_mem c hx)
    simp only [findallGo, hc]
    by_cases hq : q c = true
    · rw [if_pos hq, if_pos hq]
      exact ih (c :: cur) hrest
    · rw [if_neg hq, if_neg hq]
      by_cases hcur : cur = []
      · rw [if_pos hcur, if_pos hcur]
        exact ih [] hrest
      · rw [if_neg hcur, if_neg hcur, ih [] hrest]

/-- Counterexample for C5 as stated: on the text "aſb" the program keeps
the long s ſ (U+017F) inside one word token, because `IGNORECASE` makes it
match `[a-z]` while `lower()` leaves it unchanged; the specification's
literal alphabet breaks the text into the two tokens "a" and "b". -/
theorem tokenizer_long_s_divergence :
    extract_words ("aſb".data) = [['a', 'ſ', 'b']] ∧
    extract_words_spec ("aſb".data) = [['a'], ['b']] ∧
    extract_words ("aſb".data) ≠ extract_words_spec ("aſb".data) :=
  ⟨by decide, by decide, by decide⟩

/-- C5 (amended): for every input text none of whose characters is in the
extra case-equivalent set (ſ U+017F, ı U+0131, İ U+0130, the Kelvin sign
U+212A, the historic Cyrillic letters U+1C80-U+1C86), the tokenizer's
output equals the specification's description — lower-case the whole text,
take maximal runs of characters from the alphabet Latin `a`-`z`, Cyrillic
`а`-`я`, `ё`, then drop the stop words; producing zero tokens is an
ordinary (empty-list) result of a total function. -/
theorem tokenizer_matches_spec (text : List Char)
    (h : ∀ c ∈ text, isExtraCaseChar c = false) :
    extract_words text = extract_words_spec text := by
  unfold extract_words extract_words_spec findall
  congr 1
  apply findallGo_congr
  intro d hd
  simp only [List.mem_flatMap] at hd
  obtain ⟨c0, hc0, hd0⟩ := hd
  exact isWordChar_eq_lower_on_pyLower c0 (h c0 hc0) d hd0

/-- Witness for C5 (amended) on a plain mixed-case text. -/
theorem tokenizer_matches_spec_run :
    (∀ c ∈ ("Кот и Ёж МЫШЬ kot".data), isExtraCaseChar c = false) ∧
    extract_words ("Кот и Ёж МЫШЬ kot".data)
      = extract_words_spec ("Кот и Ёж МЫШЬ kot".data) :=
  ⟨by decide, tokenizer_matches_spec ("Кот и Ёж МЫШЬ kot".data) (by decide)⟩

/-- The full pipeline on the reference text, evaluated exactly:
`C* = 156/49 ≈ 3.1837`, theoretical frequencies `[156/49, 78/49, 52/49]`,
`SSE = 10/49 ≈ 0.2041`. -/
theorem pipeline_example_eq :
    pipeline ("кот кот собака кот собака и мышь".data) (some 200) =
      { C_opt := 156/49,
        ranks := [1, 2, 3],
        freqs_exp := [3, 2, 1],
        freqs_theor := [156/49, 78/49, 52/49],
        sse := 10/49,
        items := [("кот".data, 3), ("собака".data, 2), ("мышь".data, 1)] } := by
  have hw : extract_words ("кот кот собака кот собака и мышь".data)
      = ["кот".data, "кот".data, "собака".data, "кот".data, "собака".data, "мышь".data] := by
    decide
  have hitems : rankedItems
      ["кот".data, "кот".data, "собака".data, "кот".data, "собака".data, "мышь".data]
      (some 200) = [("кот".data, 3), ("собака".data, 2), ("мышь".data, 1)] := by decide
  unfold pipeline
  rw [hw, compute_zipf_C_opt_eq, hitems]
  norm_num [zipfC, zipfNumerator, zipfDenominator, zipfTheor, zipfSSE,
    List.range', List.zip, List.zipWith, ZipfResult.mk.injEq]

/-- Counterexample for C6 as stated: on the reference text the fitted
constant is `156/49 = 3.18367...`, which differs from the claimed `3.186`
by more than `0.001` — `3.186` is not the value of `C*` even to three
decimal places (the correct rounding is `3.184`). -/
theorem concrete_scenario_constant_is_not_3_186 :
    1/1000 ≤ |(pipeline ("кот кот собака кот собака и мышь".data) (some 200)).C_opt
      - 3186/1000| := by
  rw [pipeline_example_eq]
  rw [le_abs]
  right
  norm_num

/-- C6 (amended): on the reference text the pipeline yields the tokens
[кот, кот, собака, кот, собака, мышь] (stop word "и" removed), counts
кот=3, собака=2, мышь=1, ranks 1,2,3 with empirical frequencies [3,2,1],
fitted constant `C* = 156/49 ≈ 3.184` (not 3.186), theoretical frequencies
`[156/49, 78/49, 52/49] ≈ [3.184, 1.592, 1.061]`, and `SSE = 10/49 ≈ 0.204`. -/
theorem concrete_scenario_exact :
    extract_words ("кот кот собака кот собака и мышь".data)
      = ["кот".data, "кот".data, "собака".data, "кот".data, "собака".data, "мышь".data] ∧
    pipeline ("кот кот собака кот собака и мышь".data) (some 200) =
      { C_opt := 156/49,
        ranks := [1, 2, 3],
        freqs_exp := [3, 2, 1],
        freqs_theor := [156/49, 78/49, 52/49],
        sse := 10/49,
        items := [("кот".data, 3), ("собака".data, 2), ("мышь".data, 1)] } ∧
    |(pipeline ("кот кот собака кот собака и мышь".data) (some 200)).C_opt
      - 3184/1000| < 1/1000 ∧
    |(pipeline ("кот кот собака кот собака и мышь".data) (some 200)).freqs_theor.getD 1 0
      - 1592/1000| < 1/1000 ∧
    |(pipeline ("кот кот собака кот собака и мышь".data) (some 200)).freqs_theor.getD 2 0
      - 1061/1000| < 1/1000 ∧
    |(pipeline ("кот кот собака кот собака и мышь".data) (some 200)).sse
      - 204/1000| < 1/1000 := by
  refine ⟨by decide, pipeline_example_eq, ?_, ?_, ?_, ?_⟩ <;>
    rw [pipeline_example_eq] <;> rw [abs_lt] <;> constructor <;> norm_num [List.getD]
